import Mathlib

/-!
Shallow embedding of the MergeMyGpx library (`src/lib.rs`).

Strings (Rust `String`, `OsStr`, path strings) are modelled as `List Char`;
filesystem paths are their string form on a Unix-like platform.  The parts of
Rust's `std::path` that the library calls (`file_name`, `file_stem`,
`extension`, `parent`, `join`, `with_extension`) are modelled faithfully for
well-formed paths; `.`-component normalisation (e.g. `"foo/."`) is not
modelled, as no call site produces such paths.  Filesystem state (`is_dir`,
`is_file`, directory entries) is passed explicitly.  A Rust panic is modelled
as `Option.none`.
-/

namespace MergeMyGpx

/-- Strings are modelled as lists of characters. -/
abbrev Str := List Char

/-- Convert a Lean string literal to the model's string type. -/
def str (s : String) : Str := s.data

/-- Split a string at the last occurrence of `c`:
`splitLast c s = some (pre, post)` with `s = pre ++ c :: post` and `c ∉ post`,
or `none` when `c` does not occur in `s`. -/
def splitLast (c : Char) : Str → Option (Str × Str)
  | [] => none
  | a :: rest =>
    match splitLast c rest with
    | some (pre, post) => some (a :: pre, post)
    | none => if a = c then some ([], rest) else none

/-- Remove all trailing occurrences of `c`. -/
def stripTrailing (c : Char) (s : Str) : Str :=
  (s.reverse.dropWhile (· = c)).reverse

/-- A path component counts as a file name unless it is empty, `.` or
`..`. -/
def nameGuard (name : Str) : Option Str :=
  if name = [] ∨ name = str "." ∨ name = str ".." then none else some name

/-- Model of Rust `Path::file_name` (Unix): the final component of the path,
ignoring trailing separators; `none` for the root, the empty path, and the
`.` / `..` components. -/
def fileName (p : Str) : Option Str :=
  match splitLast '/' (stripTrailing '/' p) with
  | some (_, n) => nameGuard n
  | none => nameGuard (stripTrailing '/' p)

/-- Model of Rust's internal `split_file_at_dot`: split a file name into
(stem, extension).  A name of `..`, a name with no `.`, or a name whose only
`.` is leading has no extension; otherwise split at the last `.`. -/
def splitFileAtDot (f : Str) : Str × Option Str :=
  if f = str ".." then (f, none)
  else
    match splitLast '.' f with
    | none => (f, none)
    | some (pre, post) => if pre = [] then (f, none) else (pre, some post)

/-- Model of Rust `Path::file_stem`. -/
def fileStem (p : Str) : Option Str :=
  (fileName p).map (fun f => (splitFileAtDot f).1)

/-- Model of Rust `Path::extension`. -/
def extension (p : Str) : Option Str :=
  (fileName p).bind (fun f => (splitFileAtDot f).2)

/-- Model of Rust `Path::parent`: the path without its final component;
`none` for the root and the empty path. -/
def parent (p : Str) : Option Str :=
  let q := stripTrailing '/' p
  if q = [] then none
  else
    match splitLast '/' q with
    | some (pre, _) =>
      let pre2 := stripTrailing '/' pre
      if pre2 = [] then some (str "/") else some pre2
    | none => some []

/-- Model of Rust `Path::join` (Unix): an absolute right operand replaces the
path, otherwise it is appended after a separator. -/
def join (p s : Str) : Str :=
  if s.head? = some '/' then s
  else if p = [] then s
  else if p.getLast? = some '/' then p ++ s
  else p ++ '/' :: s

/-- Model of Rust `Path::with_extension` / `set_extension`: truncate the path
right after its file stem, then append `.` and the new extension when the new
extension is nonempty; a path with no file name is returned unchanged. -/
def withExtension (p e : Str) : Str :=
  match fileName p with
  | none => p
  | some name =>
    let q := stripTrailing '/' p
    (q.take (q.length - name.length)) ++ (splitFileAtDot name).1
      ++ (if e = [] then [] else '.' :: e)

/-- Decimal digit string of a natural number, fuel-structured so that it
reduces in the kernel; `natChars` supplies enough fuel. -/
def natCharsAux : Nat → Nat → Str
  | 0, _ => []
  | fuel + 1, n =>
    if n < 10 then [Nat.digitChar n]
    else natCharsAux fuel (n / 10) ++ [Nat.digitChar (n % 10)]

/-- Decimal digit string of a natural number (Rust `Display` for `u16`). -/
def natChars (n : Nat) : Str := natCharsAux (n + 1) n

/-- The `Action` enum of `src/lib.rs`; the `u16` decimation factor is
modelled as `Nat`. -/
inductive Action where
  | Decimate (factor : Nat)
  | Invert
  | Merge

/-- The strum `Display` serialisation of an `Action`
(`"decimated-by-{0}"`, `"inverted"`, `"merged"`). -/
def Action.label : Action → Str
  | .Decimate m => str "decimated-by-" ++ natChars m
  | .Invert => str "inverted"
  | .Merge => str "merged"

/-- Explicit filesystem state: which path strings denote directories and
which denote regular files. -/
structure FS where
  isDir : Str → Bool
  isFile : Str → Bool

/-- Model of `get_output_file_path` (`src/lib.rs:138`).  The `expect` panic
branches (no extension / no stem / no parent) are modelled as `none`; the
`to_str` conversion always succeeds in the model, where all strings are
valid Unicode. -/
def get_output_file_path (fs : FS) (path : Str) (action : Action) : Option Str :=
  if fs.isDir path then
    some (withExtension (join path action.label) (str "gpx"))
  else
    match extension path, fileStem path, parent path with
    | some ext, some stem, some base =>
      some (withExtension (join base (stem ++ str "-" ++ action.label)) ext)
    | _, _, _ => none

/-- GPX format version (gpx crate `GpxVersion`). -/
inductive GpxVersion where
  | Gpx10
  | Gpx11
  | Unknown
deriving DecidableEq

/-- A track segment (gpx crate `TrackSegment`): an ordered list of points.
The point payload type `π` is abstract because the library never inspects a
point, it only reorders, filters and copies them. -/
structure TrackSegment (π : Type) where
  points : List π
deriving DecidableEq

/-- A track (gpx crate `Track`).  String-valued descriptive fields are kept;
links are modelled as their string form. -/
structure Track (π : Type) where
  name : Option Str
  comment : Option Str
  description : Option Str
  source : Option Str
  links : List Str
  type_ : Option Str
  number : Option Nat
  segments : List (TrackSegment π)
deriving DecidableEq

/-- The `Default` value of a gpx crate `Track`. -/
def Track.default (π : Type) : Track π :=
  ⟨none, none, none, none, [], none, none, []⟩

/-- A GPX document (gpx crate `Gpx`).  Metadata and routes are never
inspected by the library, so their types `μ` and `ρ` are abstract. -/
structure Gpx (π μ ρ : Type) where
  version : GpxVersion
  creator : Option Str
  metadata : Option μ
  waypoints : List π
  tracks : List (Track π)
  routes : List ρ
deriving DecidableEq

/-- Modelled from the spec: `get_creator` in `src/lib.rs` formats the
`CARGO_PKG_NAME` and `CARGO_PKG_VERSION` build metadata, which live in
`Cargo.toml`, a file not under `src/`; the spec only requires a fixed string
identifying this tool, so the model uses a fixed representative value. -/
def get_creator : Str := str "merge-my-gpx v1"

/-- The per-document transformation performed by `invert` (`src/lib.rs:279`)
on one track: append the `(inverted)` suffix to a present name, reverse the
segment order, and reverse the point order of every segment. -/
def invertTrack {π : Type} (t : Track π) : Track π :=
  { t with
    name := t.name.map (fun n => n ++ str " (" ++ Action.Invert.label ++ str ")")
    segments := (t.segments.reverse).map (fun s => { s with points := s.points.reverse }) }

/-- The per-document body of `invert` (`src/lib.rs:276`–`295`): reverse the
track order, invert each track, and overwrite the creator. -/
def invert {π μ ρ : Type} (g : Gpx π μ ρ) : Gpx π μ ρ :=
  { g with
    tracks := (g.tracks.reverse).map invertTrack
    creator := some get_creator }

/-- The document-level body of `merge` (`src/lib.rs:313`–`341`): flatten the
segments of every track of every input document, in order, into one
default-initialised track, and build a fresh GPX 1.1 document around it. -/
def merge {π μ ρ : Type} (gpxs : List (Gpx π μ ρ)) : Gpx π μ ρ :=
  { version := GpxVersion.Gpx11
    creator := some get_creator
    metadata := none
    waypoints := []
    tracks := [{ Track.default π with
                  segments := (gpxs.flatMap (fun g => g.tracks)).flatMap
                    (fun t => t.segments) }]
    routes := [] }

/-- The point filter of `decimate` (`src/lib.rs:374`–`380`): keep the points
whose index is a multiple of the factor, plus the final point.  In Rust,
`i % factor_m` panics when `factor_m == 0`, which the model renders as
`none`; with no points the filter closure never runs, so no panic occurs. -/
def decimatePoints {π : Type} (factor : Nat) (points : List π) : Option (List π) :=
  if points.isEmpty then some []
  else if factor = 0 then none
  else some (((points.enum).filter
      (fun ie => ie.1 % factor == 0 || ie.1 == points.length - 1)).map Prod.snd)

/-- Sequential fallible traversal of a list, aborting at the first failure:
the shape of Rust's in-place per-element loops and `collect::<Result<..>>`. -/
def optionMapM {α β : Type} (f : α → Option β) : List α → Option (List β)
  | [] => some []
  | a :: rest => do
    let b ← f a
    let bs ← optionMapM f rest
    pure (b :: bs)

/-- The per-track body of `decimate` (`src/lib.rs:367`–`381`): append the
`(decimated-by-m)` suffix to a present name and decimate every segment. -/
def decimateTrack {π : Type} (factor : Nat) (t : Track π) : Option (Track π) := do
  let segs ← optionMapM (fun s => do
    let pts ← decimatePoints factor s.points
    pure { s with points := pts }) t.segments
  pure { t with
    name := t.name.map (fun n => n ++ str " (" ++ (Action.Decimate factor).label ++ str ")")
    segments := segs }

/-- The per-document body of `decimate` (`src/lib.rs:356`–`390`), the `u16`
factor modelled as `Nat`: decimate every track and overwrite the creator.
There is no validation of the factor anywhere in the function. -/
def decimate {π μ ρ : Type} (factor : Nat) (g : Gpx π μ ρ) : Option (Gpx π μ ρ) := do
  let tracks ← optionMapM (decimateTrack factor) g.tracks
  pure { g with tracks := tracks, creator := some get_creator }

/-- The error kinds that `check_files` (`src/lib.rs:26`–`64`) reports, in
the order its checks run. -/
inductive CheckError where
  | DirectoryInsteadOfFileList
  | NotAFile
  | WrongExtension
  | DuplicatePath
deriving DecidableEq

/-- The per-file loop of `check_files` (`src/lib.rs:36`–`52`): the first
file that is not a regular file, or whose extension is not `gpx`, yields the
corresponding error. -/
def checkFilesEach (fs : FS) : List Str → Option CheckError
  | [] => none
  | f :: rest =>
    if !(fs.isFile f) then some .NotAFile
    else if !(extension f == some (str "gpx")) then some .WrongExtension
    else checkFilesEach fs rest

/-- The guard `files.len() == 1 && files[0].is_dir()` of `check_files`
(`src/lib.rs:30`). -/
def singletonIsDir (fs : FS) : List Str → Bool
  | [f] => fs.isDir f
  | _ => false

/-- Model of `check_files` (`src/lib.rs:26`–`64`).  The `HashSet` cardinality
test `unique.len() != files.len()` on the `to_string_lossy` forms is the
model's `dedup`-length test on the path strings themselves (all model strings
are valid Unicode). -/
def check_files (fs : FS) (files : List Str) : Except CheckError Unit :=
  if singletonIsDir fs files then
    .error .DirectoryInsteadOfFileList
  else
    match checkFilesEach fs files with
    | some e => .error e
    | none =>
      if (files.dedup).length ≠ files.length then .error .DuplicatePath
      else .ok ()

/-- Byte-wise (code-point-wise) lexicographic order on strings; for sibling
paths of one directory this coincides with the `PathBuf` ordering that
`Vec::sort` uses in `list_gpx_files`. -/
def lexLe : Str → Str → Bool
  | [], _ => true
  | _ :: _, [] => false
  | a :: as, b :: bs => if a = b then lexLe as bs else decide (a < b)

/-- Model of `list_gpx_files` (`src/lib.rs:67`–`98`): from the entries the
directory enumeration yielded successfully (entries whose read errored are
already skipped by the caller of the closure), keep those whose extension is
`gpx`, and sort.  No `is_file` test is performed. -/
def list_gpx_files (entries : List Str) : List Str :=
  (entries.filter (fun p => extension p == some (str "gpx"))).mergeSort lexLe

/-- The points a successful decimation keeps: those whose index is a
multiple of the factor, plus the final point (the `filter` of
`src/lib.rs:374`–`380`, for a factor on which `%` does not panic). -/
def keepPoints {π : Type} (factor : Nat) (pts : List π) : List π :=
  ((pts.enum).filter
    (fun ie => ie.1 % factor == 0 || ie.1 == pts.length - 1)).map Prod.snd

/-- The segment a successful decimation produces. -/
def keepSegment {π : Type} (factor : Nat) (s : TrackSegment π) : TrackSegment π :=
  { s with points := keepPoints factor s.points }

/-- The track a successful decimation produces: suffixed name, decimated
segments. -/
def keepTrack {π : Type} (factor : Nat) (t : Track π) : Track π :=
  { t with
    name := t.name.map (fun n =>
      n ++ str " (" ++ (Action.Decimate factor).label ++ str ")")
    segments := t.segments.map (keepSegment factor) }

/-- The document a successful decimation produces: decimated tracks,
overwritten creator. -/
def keepGpx {π μ ρ : Type} (factor : Nat) (g : Gpx π μ ρ) : Gpx π μ ρ :=
  { g with
    tracks := g.tracks.map (keepTrack factor)
    creator := some get_creator }

/-- A filesystem state in which every path is a regular file. -/
def fsAllFiles : FS := ⟨fun _ => false, fun _ => true⟩

/-- A filesystem state in which every path is a directory. -/
def fsAllDirs : FS := ⟨fun _ => true, fun _ => false⟩

/-- A track holding one one-point segment, used by witnesses. -/
def trackOnePoint : Track Nat :=
  { Track.default Nat with segments := [⟨[1]⟩] }

/-- A one-track document with a single one-point segment, used by witnesses. -/
def gpxOnePoint : Gpx Nat Unit Unit :=
  { version := .Gpx11, creator := none, metadata := none, waypoints := [],
    tracks := [trackOnePoint], routes := [] }

/-- A one-track document with a three-point segment, used by witnesses. -/
def gpxThreePoints : Gpx Nat Unit Unit :=
  { version := .Gpx11, creator := none, metadata := none, waypoints := [],
    tracks := [{ Track.default Nat with segments := [⟨[10, 20, 30]⟩] }],
    routes := [] }

example :
    get_output_file_path ⟨fun _ => false, fun _ => true⟩ (str "/x/track.gpx")
      Action.Invert = some (str "/x/track-inverted.gpx") := by decide

example :
    get_output_file_path ⟨fun _ => true, fun _ => false⟩ (str "/x")
      Action.Merge = some (str "/x/merged.gpx") := by decide

example :
    get_output_file_path ⟨fun _ => true, fun _ => false⟩ (str "/x")
      (Action.Decimate 5) = some (str "/x/decimated-by-5.gpx") := by decide

example :
    get_output_file_path ⟨fun _ => false, fun _ => true⟩ (str "/x/a.b.gpx")
      Action.Invert = some (str "/x/a.gpx") := by decide

example :
    get_output_file_path ⟨fun _ => false, fun _ => true⟩ (str "/x/track")
      Action.Invert = none := by decide

example : decimatePoints 2 [10, 20, 30, 40, 50] = some [10, 30, 50] := by decide

example : decimatePoints 2 [10, 20, 30, 40] = some [10, 30, 40] := by decide

example : decimatePoints 0 ([7] : List Nat) = none := by decide

/-- C3: `merge` produces a document with exactly one track, whose segment
sequence is the concatenation, in input order, of the segments of every
track of every input document, so its segment count is the sum over inputs
of the sum over tracks of their segment counts; waypoints and routes are
dropped, the version is the fixed GPX 1.1, and the creator is this tool's
identifying string. -/
theorem merge_single_track_concat {π μ ρ : Type} (gpxs : List (Gpx π μ ρ)) :
    (merge gpxs).tracks.length = 1 ∧
    (merge gpxs).tracks = [{ Track.default π with
        segments := (gpxs.flatMap (fun g => g.tracks)).flatMap
          (fun t => t.segments) }] ∧
    ((merge gpxs).tracks.flatMap (fun t => t.segments)).length
      = (gpxs.map (fun g => (g.tracks.map (fun t => t.segments.length)).sum)).sum ∧
    (merge gpxs).waypoints = [] ∧
    (merge gpxs).routes = [] ∧
    (merge gpxs).version = GpxVersion.Gpx11 ∧
    (merge gpxs).creator = some get_creator := by
  refine ⟨rfl, rfl, ?_, rfl, rfl, rfl, rfl⟩
  show ((gpxs.flatMap (fun g => g.tracks)).flatMap (fun t => t.segments)
      ++ []).length = _
  rw [List.append_nil]
  induction gpxs with
  | nil => rfl
  | cons g gs ih => simp_all [List.length_flatMap, Function.comp_def]

/-- C4: applying `invert` twice restores the original order of tracks, of
segments within each track, and of points within each segment: the nested
geometry extraction is unchanged. -/
theorem invert_invert_geometry {π μ ρ : Type} (g : Gpx π μ ρ) :
    (invert (invert g)).tracks.map (fun t => t.segments.map (fun s => s.points))
      = g.tracks.map (fun t => t.segments.map (fun s => s.points)) := by
  simp [invert, invertTrack, List.map_reverse, List.map_map, Function.comp_def]

/-- C9: `invert` leaves the document's waypoints, routes, metadata and
version unchanged; among the track fields it changes only the name (and the
segment structure), and it sets the creator. -/
theorem invert_frame {π μ ρ : Type} (g : Gpx π μ ρ) :
    (invert g).waypoints = g.waypoints ∧
    (invert g).routes = g.routes ∧
    (invert g).metadata = g.metadata ∧
    (invert g).version = g.version ∧
    List.Forall₂ (fun t' t => t'.comment = t.comment ∧
        t'.description = t.description ∧ t'.source = t.source ∧
        t'.links = t.links ∧ t'.type_ = t.type_ ∧ t'.number = t.number)
      ((invert g).tracks) (g.tracks.reverse) ∧
    (invert g).creator = some get_creator := by
  refine ⟨rfl, rfl, rfl, rfl, ?_, rfl⟩
  show List.Forall₂ _ ((g.tracks.reverse).map invertTrack) (g.tracks.reverse)
  rw [List.forall₂_map_left_iff]
  exact List.forall₂_same.mpr (fun t _ => ⟨rfl, rfl, rfl, rfl, rfl, rfl⟩)

theorem optionMapM_eq_none_of_mem {α β : Type} {l : List α} {f : α → Option β}
    {a : α} (ha : a ∈ l) (hfa : f a = none) : optionMapM f l = none := by
  induction l with
  | nil => cases ha
  | cons b rest ih =>
    rcases List.mem_cons.mp ha with h | h
    · subst h
      simp [optionMapM, hfa]
    · cases hb : f b <;> simp [optionMapM, hb, ih h]

theorem optionMapM_eq_some_map {α β : Type} {l : List α} {f : α → Option β}
    {g : α → β} (h : ∀ a ∈ l, f a = some (g a)) :
    optionMapM f l = some (l.map g) := by
  induction l with
  | nil => rfl
  | cons b rest ih =>
    simp [optionMapM, h b (List.mem_cons_self b rest),
      ih (fun a ha => h a (List.mem_cons_of_mem b ha))]

theorem decimatePoints_eq_keepPoints {π : Type} {factor : Nat}
    (hf : factor ≠ 0) (pts : List π) :
    decimatePoints factor pts = some (keepPoints factor pts) := by
  by_cases h : pts.isEmpty
  · rw [List.isEmpty_iff] at h
    subst h
    rfl
  · simp [decimatePoints, h, hf, keepPoints]

theorem decimatePoints_none_of_zero {π : Type} {pts : List π}
    (h : pts ≠ []) : decimatePoints 0 pts = none := by
  simp [decimatePoints, h]

theorem keepPoints_sublist {π : Type} (factor : Nat) (pts : List π) :
    (keepPoints factor pts).Sublist pts := by
  have h := List.Sublist.map Prod.snd
    (List.filter_sublist (p := fun ie : Nat × π =>
      ie.1 % factor == 0 || ie.1 == pts.length - 1) pts.enum)
  rwa [List.enum_map_snd] at h

theorem keepPoints_head {π : Type} (factor : Nat) (pts : List π)
    (h : pts ≠ []) : pts.head h ∈ keepPoints factor pts := by
  apply List.mem_map.mpr
  refine ⟨(0, pts.head h), List.mem_filter.mpr ⟨?_, ?_⟩, rfl⟩
  · cases pts with
    | nil => exact absurd rfl h
    | cons a rest => simp [List.enum_cons]
  · simp [Nat.zero_mod]

theorem keepPoints_getLast {π : Type} (factor : Nat) (pts : List π)
    (h : pts ≠ []) : pts.getLast h ∈ keepPoints factor pts := by
  apply List.mem_map.mpr
  refine ⟨(pts.length - 1, pts.getLast h), List.mem_filter.mpr ⟨?_, ?_⟩, rfl⟩
  · apply List.mk_mem_enum_iff_getElem?.mpr
    rw [List.getLast_eq_getElem]
    exact List.getElem?_eq_getElem _
  · simp

/-- C1 (documents the divergence): the code performs no factor validation at
all, so there is no `InvalidFactor` error.  For factor `0`, `decimate` on any
document containing at least one point panics — Rust's `%` with divisor zero
— modelled as `none`, instead of returning an error value; the factor-`1`
half of the claim does hold in the code: factor `1` keeps every point. -/
theorem decimate_zero_panics_one_noop {π μ ρ : Type} :
    (∀ g : Gpx π μ ρ, (∃ t ∈ g.tracks, ∃ s ∈ t.segments, s.points ≠ []) →
      decimate 0 g = none) ∧
    (∀ points : List π, decimatePoints 1 points = some points) := by
  constructor
  · rintro g ⟨t, ht, s, hs, hpts⟩
    have hseg : (fun sg : TrackSegment π => do
        let pts ← decimatePoints 0 sg.points
        pure { sg with points := pts }) s = none := by
      simp [decimatePoints_none_of_zero hpts]
    have htrack : decimateTrack 0 t = none := by
      unfold decimateTrack
      rw [optionMapM_eq_none_of_mem hs hseg]
      rfl
    unfold decimate
    rw [optionMapM_eq_none_of_mem ht htrack]
    rfl
  · intro points
    rw [decimatePoints_eq_keepPoints (by decide) points]
    unfold keepPoints
    have : ∀ ie : Nat × π, (ie.1 % 1 == 0 || ie.1 == points.length - 1) = true := by
      intro ie
      simp [Nat.mod_one]
    rw [List.filter_eq_self.mpr (fun a _ => this a), List.enum_map_snd]

/-- C1 witness. -/
theorem decimate_zero_panics_one_noop_witness :
    decimate 0 gpxOnePoint = none ∧ decimatePoints 1 [5, 6] = some [5, 6] :=
  ⟨(@decimate_zero_panics_one_noop Nat Unit Unit).1 gpxOnePoint
      ⟨trackOnePoint, by simp [gpxOnePoint], ⟨[1]⟩,
        by simp [trackOnePoint, Track.default], by simp⟩,
    (@decimate_zero_panics_one_noop Nat Unit Unit).2 [5, 6]⟩

/-- C2: for every document and every factor ≥ 1, decimation succeeds, and
segment by segment the output points are exactly the input points whose
index is a multiple of the factor plus the final point; the output is a
subsequence of the input, and a non-empty segment keeps both its first and
its last point. -/
theorem decimate_filter_spec {π μ ρ : Type} (factor : Nat) (hf : 1 ≤ factor)
    (g : Gpx π μ ρ) :
    decimate factor g = some (keepGpx factor g) ∧
      List.Forall₂ (fun t' t =>
        List.Forall₂ (fun s' s : TrackSegment π =>
          s'.points = keepPoints factor s.points ∧
          s'.points.Sublist s.points ∧
          ∀ h : s.points ≠ [],
            s.points.head h ∈ s'.points ∧ s.points.getLast h ∈ s'.points)
          t'.segments t.segments)
        (keepGpx factor g).tracks g.tracks := by
  have hf0 : factor ≠ 0 := by omega
  constructor
  · unfold decimate
    rw [optionMapM_eq_some_map (g := keepTrack factor)]
    · rfl
    · intro t _
      unfold decimateTrack
      rw [optionMapM_eq_some_map (g := keepSegment factor)]
      · rfl
      · intro s _
        simp [decimatePoints_eq_keepPoints hf0, keepSegment]
  · show List.Forall₂ _ (g.tracks.map _) g.tracks
    rw [List.forall₂_map_left_iff]
    apply List.forall₂_same.mpr
    intro t _
    show List.Forall₂ _ (t.segments.map _) t.segments
    rw [List.forall₂_map_left_iff]
    apply List.forall₂_same.mpr
    intro s _
    exact ⟨rfl, keepPoints_sublist factor s.points,
      fun h => ⟨keepPoints_head factor s.points h,
        keepPoints_getLast factor s.points h⟩⟩

/-- C2 witness. -/
theorem decimate_filter_spec_witness :
    decimate 2 gpxThreePoints = some (keepGpx 2 gpxThreePoints) ∧
      List.Forall₂ (fun t' t =>
        List.Forall₂ (fun s' s : TrackSegment Nat =>
          s'.points = keepPoints 2 s.points ∧
          s'.points.Sublist s.points ∧
          ∀ h : s.points ≠ [],
            s.points.head h ∈ s'.points ∧ s.points.getLast h ∈ s'.points)
          t'.segments t.segments)
        (keepGpx 2 gpxThreePoints).tracks gpxThreePoints.tracks :=
  decimate_filter_spec 2 (by decide) gpxThreePoints

theorem checkFilesEach_eq_none {fs : FS} {files : List Str}
    (hfile : ∀ f ∈ files, fs.isFile f = true)
    (hext : ∀ f ∈ files, extension f = some (str "gpx")) :
    checkFilesEach fs files = none := by
  induction files with
  | nil => rfl
  | cons f rest ih =>
    simp only [checkFilesEach, hfile f (List.mem_cons_self f rest),
      hext f (List.mem_cons_self f rest)]
    simp [ih (fun a ha => hfile a (List.mem_cons_of_mem f ha))
      (fun a ha => hext a (List.mem_cons_of_mem f ha))]

theorem dedup_length_ne_iff {α : Type} [DecidableEq α] (l : List α) :
    l.dedup.length ≠ l.length ↔ ¬ l.Nodup := by
  constructor
  · intro h hnd
    exact h (by rw [List.dedup_eq_self.mpr hnd])
  · intro hnd h
    exact hnd (by
      have : l.dedup = l := (l.dedup_sublist).eq_of_length h
      rw [← this]
      exact l.nodup_dedup)

/-- C8: on a list of paths that are existing regular files with the `gpx`
extension, `check_files` fails with `DuplicatePath` exactly when the same
path string occurs more than once in the list, succeeds exactly when all
paths are distinct, and succeeds on the empty list. -/
theorem check_files_duplicate_iff (fs : FS) (files : List Str)
    (hfile : ∀ f ∈ files, fs.isFile f = true)
    (hext : ∀ f ∈ files, extension f = some (str "gpx"))
    (hnd : ∀ f ∈ files, fs.isDir f = false) :
    (check_files fs files = .error .DuplicatePath ↔ ¬ files.Nodup) ∧
    (check_files fs files = .ok () ↔ files.Nodup) ∧
    check_files fs [] = .ok () := by
  have hdir : singletonIsDir fs files = false := by
    cases files with
    | nil => rfl
    | cons f rest =>
      cases rest with
      | nil => exact hnd f (List.mem_cons_self f [])
      | cons b brest => rfl
  have heach := checkFilesEach_eq_none hfile hext
  have hck : check_files fs files =
      (if files.dedup.length ≠ files.length then .error .DuplicatePath
       else .ok ()) := by
    unfold check_files
    rw [hdir, heach]
    rfl
  have hiff := dedup_length_ne_iff files
  refine ⟨?_, ?_, rfl⟩
  · rw [hck]
    by_cases h : files.dedup.length ≠ files.length
    · simp [h, hiff.mp h]
    · have hnodup : files.Nodup := by
        by_contra hc
        exact h (hiff.mpr hc)
      simp [h, hnodup]
  · rw [hck]
    by_cases h : files.dedup.length ≠ files.length
    · simp [h, hiff.mp h]
    · have hnodup : files.Nodup := by
        by_contra hc
        exact h (hiff.mpr hc)
      simp [h, hnodup]

/-- C8 witness: `[a.gpx, a.gpx]` is rejected with `DuplicatePath`. -/
theorem check_files_duplicate_iff_witness :
    check_files fsAllFiles [str "a.gpx", str "a.gpx"]
      = .error .DuplicatePath :=
  (check_files_duplicate_iff fsAllFiles [str "a.gpx", str "a.gpx"]
    (by decide) (by decide) (by decide)).1.mpr (by decide)

theorem lexLe_trans (a b c : Str) (h1 : lexLe a b = true)
    (h2 : lexLe b c = true) : lexLe a c = true := by
  induction a generalizing b c with
  | nil => rfl
  | cons x xs ih =>
    cases b with
    | nil => simp [lexLe] at h1
    | cons y ys =>
      cases c with
      | nil => simp [lexLe] at h2
      | cons z zs =>
        simp only [lexLe] at h1 h2 ⊢
        by_cases hxy : x = y
        · subst hxy
          by_cases hyz : x = z
          · subst hyz
            simp only [if_pos rfl] at h1 h2 ⊢
            exact ih ys zs h1 h2
          · simp only [if_pos rfl] at h1
            simp only [if_neg hyz] at h2 ⊢
            exact h2
        · by_cases hyz : y = z
          · subst hyz
            simp only [if_neg hxy] at h1 ⊢
            exact h1
          · simp only [if_neg hxy] at h1
            simp only [if_neg hyz] at h2
            have hxz : x < z := lt_trans (of_decide_eq_true h1)
              (of_decide_eq_true h2)
            rw [if_neg (ne_of_lt hxz)]
            exact decide_eq_true hxz

theorem lexLe_total (a b : Str) : (lexLe a b || lexLe b a) = true := by
  induction a generalizing b with
  | nil => simp [lexLe]
  | cons x xs ih =>
    cases b with
    | nil => simp [lexLe]
    | cons y ys =>
      simp only [lexLe]
      by_cases hxy : x = y
      · subst hxy
        simp only [if_pos rfl]
        exact ih ys
      · rcases lt_or_gt_of_ne hxy with h | h
        · rw [if_neg hxy, decide_eq_true h]
          simp
        · rw [if_neg (Ne.symm hxy), decide_eq_true h]
          simp

/-- C7 counterexample: the claim says the scan returns exactly the entries
that are regular files with the expected extension, but the code never tests
`is_file`: an entry that is a directory named `sub.gpx` is returned even in
a filesystem state where nothing is a regular file. -/
theorem list_gpx_files_counterexample :
    list_gpx_files [str "/d/sub.gpx"] = [str "/d/sub.gpx"] ∧
    fsAllDirs.isFile (str "/d/sub.gpx") = false ∧
    fsAllDirs.isDir (str "/d/sub.gpx") = true := by
  refine ⟨?_, rfl, rfl⟩
  unfold list_gpx_files
  rw [show List.filter (fun p => extension p == some (str "gpx"))
      [str "/d/sub.gpx"] = [str "/d/sub.gpx"] from by decide]
  exact List.mergeSort_singleton _

/-- C7 amended: `list_gpx_files` returns exactly the enumerated entries
whose extension is `gpx` — with no regular-file test — sorted in ascending
lexicographic order by path string, and it returns the empty list (a
success, not an error) when no entry matches. -/
theorem list_gpx_files_spec (entries : List Str) :
    (∀ p, p ∈ list_gpx_files entries ↔
      p ∈ entries ∧ extension p = some (str "gpx")) ∧
    List.Pairwise (fun a b => lexLe a b = true) (list_gpx_files entries) ∧
    ((∀ p ∈ entries, extension p ≠ some (str "gpx")) →
      list_gpx_files entries = []) := by
  refine ⟨?_, ?_, ?_⟩
  · intro p
    unfold list_gpx_files
    rw [List.mem_mergeSort, List.mem_filter]
    simp [beq_iff_eq]
  · exact List.sorted_mergeSort lexLe_trans lexLe_total _
  · intro h
    unfold list_gpx_files
    rw [List.filter_eq_nil_iff.mpr (fun a ha => by simp [h a ha])]
    exact List.mergeSort_nil

/-- C7 witness: a concrete three-entry scan. -/
theorem list_gpx_files_spec_witness :
    (∀ p, p ∈ list_gpx_files [str "/d/b.gpx", str "/d/a.gpx", str "/d/c.txt"] ↔
      p ∈ [str "/d/b.gpx", str "/d/a.gpx", str "/d/c.txt"] ∧
      extension p = some (str "gpx")) ∧
    List.Pairwise (fun a b => lexLe a b = true)
      (list_gpx_files [str "/d/b.gpx", str "/d/a.gpx", str "/d/c.txt"]) ∧
    ((∀ p ∈ [str "/d/b.gpx", str "/d/a.gpx", str "/d/c.txt"],
        extension p ≠ some (str "gpx")) →
      list_gpx_files [str "/d/b.gpx", str "/d/a.gpx", str "/d/c.txt"] = []) :=
  list_gpx_files_spec [str "/d/b.gpx", str "/d/a.gpx", str "/d/c.txt"]

theorem splitLast_of_not_mem {c : Char} {s : Str} (h : c ∉ s) :
    splitLast c s = none := by
  induction s with
  | nil => rfl
  | cons a rest ih =>
    have hc : c ∉ rest := fun hm => h (List.mem_cons_of_mem a hm)
    have ha : a ≠ c := fun he => h (he ▸ List.mem_cons_self a rest)
    simp [splitLast, ih hc, ha]

theorem not_mem_of_splitLast_eq_none {c : Char} {s : Str}
    (h : splitLast c s = none) : c ∉ s := by
  induction s with
  | nil => simp
  | cons a rest ih =>
    simp only [splitLast] at h
    cases hr : splitLast c rest with
    | some pp => rw [hr] at h; cases h
    | none =>
      rw [hr] at h
      have ha : a ≠ c := by
        intro he
        rw [if_pos he] at h
        cases h
      intro hm
      rcases List.mem_cons.mp hm with h1 | h1
      · exact ha h1.symm
      · exact ih hr h1

theorem splitLast_append {c : Char} (pre post : Str) (h : c ∉ post) :
    splitLast c (pre ++ c :: post) = some (pre, post) := by
  induction pre with
  | nil => simp [splitLast, splitLast_of_not_mem h]
  | cons a rest ih => simp [splitLast, ih]

theorem splitLast_spec {c : Char} {s pre post : Str}
    (h : splitLast c s = some (pre, post)) :
    s = pre ++ c :: post ∧ c ∉ post := by
  induction s generalizing pre post with
  | nil => cases h
  | cons a rest ih =>
    simp only [splitLast] at h
    cases hr : splitLast c rest with
    | some pp =>
      rw [hr] at h
      obtain ⟨p1, p2⟩ := pp
      have h1 : a :: p1 = pre ∧ p2 = post := by
        have := Option.some.inj h
        exact ⟨congrArg Prod.fst this, congrArg Prod.snd this⟩
      obtain ⟨hrest, hpost⟩ := ih hr
      rw [← h1.1, ← h1.2]
      exact ⟨by rw [hrest, List.cons_append], hpost⟩
    | none =>
      rw [hr] at h
      by_cases ha : a = c
      · rw [if_pos ha] at h
        have h1 : ([] : Str) = pre ∧ rest = post := by
          have := Option.some.inj h
          exact ⟨congrArg Prod.fst this, congrArg Prod.snd this⟩
        rw [← h1.1, ← h1.2, ha]
        exact ⟨rfl, not_mem_of_splitLast_eq_none hr⟩
      · rw [if_neg ha] at h
        cases h

theorem mem_of_getLast?_eq_some {α : Type} {l : List α} {a : α}
    (h : l.getLast? = some a) : a ∈ l := by
  rw [← List.head?_reverse] at h
  exact List.mem_reverse.mp (List.mem_of_mem_head? h)

theorem stripTrailing_eq_self {c : Char} {s : Str}
    (h : s.getLast? ≠ some c) : stripTrailing c s = s := by
  unfold stripTrailing
  cases hs : s.reverse with
  | nil =>
    rw [List.dropWhile_nil, ← hs, List.reverse_reverse]
  | cons a rest =>
    have ha : a ≠ c := by
      intro he
      apply h
      rw [← List.head?_reverse, hs, he]
      rfl
    rw [List.dropWhile_cons, if_neg (by simp [ha]), ← hs,
      List.reverse_reverse]

theorem getLast?_ne_of_not_mem {c : Char} {s : Str} (h : c ∉ s) :
    s.getLast? ≠ some c :=
  fun he => h (mem_of_getLast?_eq_some he)

theorem str_dot_eq : str "." = ['.'] := rfl

theorem str_dotdot_eq : str ".." = ['.', '.'] := rfl

theorem ne_dot_of_not_mem {name : Str} (hd : '.' ∉ name) :
    name ≠ str "." ∧ name ≠ str ".." := by
  constructor
  · intro he
    rw [he, str_dot_eq] at hd
    exact hd (List.mem_singleton.mpr rfl)
  · intro he
    rw [he, str_dotdot_eq] at hd
    exact hd (List.mem_cons_self _ _)

theorem fileName_of_no_slash {name : Str} (h0 : name ≠ [])
    (h1 : '/' ∉ name) (h2 : name ≠ str ".") (h3 : name ≠ str "..") :
    fileName name = some name := by
  unfold fileName
  rw [stripTrailing_eq_self (getLast?_ne_of_not_mem h1)]
  simp only [splitLast_of_not_mem h1]
  simp [nameGuard, h0, h2, h3]

theorem getLast?_append_no_slash {b name : Str} (h0 : name ≠ [])
    (h1 : '/' ∉ name) : (b ++ name).getLast? ≠ some '/' := by
  rw [List.getLast?_append_of_ne_nil b h0]
  exact getLast?_ne_of_not_mem h1

theorem fileName_append_slash {b name : Str} (h0 : name ≠ [])
    (h1 : '/' ∉ name) (h2 : name ≠ str ".") (h3 : name ≠ str "..") :
    fileName (b ++ '/' :: name) = some name := by
  have hst : stripTrailing '/' (b ++ '/' :: name) = b ++ '/' :: name := by
    apply stripTrailing_eq_self
    rw [List.getLast?_append_of_ne_nil b (by simp)]
    show ('/' :: name).getLast? ≠ some '/'
    cases hn : name with
    | nil => exact absurd hn h0
    | cons x xs =>
      rw [List.getLast?_cons_cons]
      exact getLast?_ne_of_not_mem (hn ▸ h1)
  unfold fileName
  rw [hst]
  simp only [splitLast_append b name h1]
  simp [nameGuard, h0, h2, h3]

theorem natCharsAux_digits {fuel n : Nat} {c : Char}
    (hc : c ∈ natCharsAux fuel n) : ∃ m, m < 10 ∧ c = Nat.digitChar m := by
  induction fuel generalizing n with
  | zero => cases hc
  | succ fuel ih =>
    simp only [natCharsAux] at hc
    by_cases h : n < 10
    · rw [if_pos h] at hc
      exact ⟨n, h, List.mem_singleton.mp hc⟩
    · rw [if_neg h] at hc
      rcases List.mem_append.mp hc with h1 | h1
      · exact ih h1
      · exact ⟨n % 10, Nat.mod_lt _ (by omega), List.mem_singleton.mp h1⟩

theorem digitChar_ne_slash_dot {m : Nat} (h : m < 10) :
    Nat.digitChar m ≠ '/' ∧ Nat.digitChar m ≠ '.' := by
  interval_cases m <;> exact ⟨by decide, by decide⟩

theorem label_ne_nil (a : Action) : a.label ≠ [] := by
  cases a with
  | Decimate m => simp [Action.label, str]
  | Invert => decide
  | Merge => decide

theorem slash_not_mem_label (a : Action) : '/' ∉ a.label := by
  cases a with
  | Decimate m =>
    intro hm
    rcases List.mem_append.mp hm with h1 | h1
    · revert h1
      decide
    · obtain ⟨k, hk, he⟩ := natCharsAux_digits h1
      exact (digitChar_ne_slash_dot hk).1 he.symm
  | Invert => decide
  | Merge => decide

theorem dot_not_mem_label (a : Action) : '.' ∉ a.label := by
  cases a with
  | Decimate m =>
    intro hm
    rcases List.mem_append.mp hm with h1 | h1
    · revert h1
      decide
    · obtain ⟨k, hk, he⟩ := natCharsAux_digits h1
      exact (digitChar_ne_slash_dot hk).2 he.symm
  | Invert => decide
  | Merge => decide

theorem take_sub_append {α : Type} (X name : List α) :
    (X ++ name).take ((X ++ name).length - name.length) = X := by
  rw [List.length_append, Nat.add_sub_cancel]
  exact List.take_left X name

theorem splitFileAtDot_no_dot {f : Str} (h : '.' ∉ f) :
    splitFileAtDot f = (f, none) := by
  unfold splitFileAtDot
  by_cases hf : f = str ".."
  · rw [if_pos hf]
  · rw [if_neg hf, splitLast_of_not_mem h]

theorem withExtension_parts {X name e : Str}
    (hfn : fileName (X ++ name) = some name)
    (hst : stripTrailing '/' (X ++ name) = X ++ name)
    (hdot : '.' ∉ name) (he : e ≠ []) :
    withExtension (X ++ name) e = X ++ (name ++ '.' :: e) := by
  unfold withExtension
  rw [hfn]
  simp only [hst, splitFileAtDot_no_dot hdot, take_sub_append, if_neg he]
  rw [List.append_assoc]

theorem stripTrailing_append_slash {b name : Str} (h0 : name ≠ [])
    (h1 : '/' ∉ name) :
    stripTrailing '/' (b ++ '/' :: name) = b ++ '/' :: name := by
  apply stripTrailing_eq_self
  have hsplit : b ++ '/' :: name = (b ++ ['/']) ++ name := by
    rw [List.append_assoc, List.singleton_append]
  rw [hsplit]
  exact getLast?_append_no_slash h0 h1

theorem withExtension_join {b name e : Str} (h0 : name ≠ [])
    (h1 : '/' ∉ name) (hd : '.' ∉ name) (he : e ≠ []) :
    withExtension (join b name) e = join b (name ++ '.' :: e) := by
  obtain ⟨hne1, hne2⟩ := ne_dot_of_not_mem hd
  have hhead : ¬ (name.head? = some '/') :=
    fun h => h1 (List.mem_of_mem_head? (Option.mem_def.mpr h))
  have hheadE : ¬ ((name ++ '.' :: e).head? = some '/') := by
    rw [List.head?_append_of_ne_nil name h0]
    exact hhead
  unfold join
  rw [if_neg hhead, if_neg hheadE]
  by_cases hb : b = []
  · rw [if_pos hb, if_pos hb]
    have hfn := fileName_of_no_slash h0 h1 hne1 hne2
    have hst := stripTrailing_eq_self (getLast?_ne_of_not_mem (s := name) h1)
    have h := withExtension_parts (X := []) (by simpa using hfn)
      (by simpa using hst) hd he
    simpa using h
  · rw [if_neg hb, if_neg hb]
    by_cases hl : b.getLast? = some '/'
    · rw [if_pos hl, if_pos hl]
      have hg : b.getLast hb = '/' := by
        have := List.getLast?_eq_getLast b hb
        rw [this] at hl
        exact Option.some.inj hl
      have hbd : b.dropLast ++ ['/'] = b := by
        rw [← hg]
        exact List.dropLast_concat_getLast hb
      have hassoc : b ++ name = b.dropLast ++ '/' :: name := by
        conv_lhs => rw [← hbd]
        rw [List.append_assoc, List.singleton_append]
      have hfn : fileName (b ++ name) = some name := by
        rw [hassoc]
        exact fileName_append_slash h0 h1 hne1 hne2
      have hst : stripTrailing '/' (b ++ name) = b ++ name :=
        stripTrailing_eq_self (getLast?_append_no_slash h0 h1)
      exact withExtension_parts hfn hst hd he
    · rw [if_neg hl, if_neg hl]
      have hassoc : b ++ '/' :: name = (b ++ ['/']) ++ name := by
        rw [List.append_assoc, List.singleton_append]
      have hfn : fileName ((b ++ ['/']) ++ name) = some name := by
        rw [← hassoc]
        exact fileName_append_slash h0 h1 hne1 hne2
      have hst : stripTrailing '/' ((b ++ ['/']) ++ name)
          = (b ++ ['/']) ++ name := by
        rw [← hassoc]
        exact stripTrailing_append_slash h0 h1
      have h := withExtension_parts hfn hst hd he
      rw [← hassoc] at h
      rw [h, List.append_assoc, List.singleton_append]

theorem str_dash_eq : str "-" = ['-'] := rfl

theorem nameGuard_eq_some {n name : Str} (h : nameGuard n = some name) :
    n = name := by
  unfold nameGuard at h
  by_cases hc : n = [] ∨ n = str "." ∨ n = str ".."
  · rw [if_pos hc] at h
    cases h
  · rw [if_neg hc] at h
    exact Option.some.inj h

theorem fileName_no_slash {p name : Str} (h : fileName p = some name) :
    '/' ∉ name := by
  unfold fileName at h
  cases hsl : splitLast '/' (stripTrailing '/' p) with
  | some pp =>
    obtain ⟨pre, n⟩ := pp
    rw [hsl] at h
    have h3 : nameGuard n = some name := h
    rw [← nameGuard_eq_some h3]
    exact (splitLast_spec hsl).2
  | none =>
    rw [hsl] at h
    have h3 : nameGuard (stripTrailing '/' p) = some name := h
    rw [← nameGuard_eq_some h3]
    exact not_mem_of_splitLast_eq_none hsl

theorem splitFileAtDot_fst_subset {f : Str} {x : Char}
    (hx : x ∈ (splitFileAtDot f).1) : x ∈ f := by
  unfold splitFileAtDot at hx
  by_cases hf : f = str ".."
  · rw [if_pos hf] at hx
    exact hx
  · rw [if_neg hf] at hx
    cases hsl : splitLast '.' f with
    | none =>
      rw [hsl] at hx
      exact hx
    | some pp =>
      obtain ⟨pre, post⟩ := pp
      rw [hsl] at hx
      simp only [] at hx
      by_cases hp : pre = []
      · rw [if_pos hp] at hx
        exact hx
      · rw [if_neg hp] at hx
        rw [(splitLast_spec hsl).1]
        exact List.mem_append.mpr (Or.inl hx)

theorem fileStem_no_slash {p s : Str} (h : fileStem p = some s) :
    '/' ∉ s := by
  unfold fileStem at h
  cases hfn : fileName p with
  | none => rw [hfn] at h; cases h
  | some name =>
    rw [hfn] at h
    have hs : (splitFileAtDot name).1 = s := Option.some.inj h
    intro hm
    rw [← hs] at hm
    exact fileName_no_slash hfn (splitFileAtDot_fst_subset hm)

/-- C5 counterexample: `get_output_file_path` reads the filesystem through
`is_dir`, so the same path and action give different results in two
filesystem states that disagree on whether the path is a directory. -/
theorem get_output_file_path_fs_dependent :
    get_output_file_path fsAllDirs (str "/x/track.gpx") Action.Invert
      ≠ get_output_file_path fsAllFiles (str "/x/track.gpx") Action.Invert := by
  decide

/-- C5 amended: the result of `get_output_file_path` depends on the
filesystem only through `is_dir` of the input path: two filesystem states
that agree on that one bit give identical results for every path and
action. -/
theorem get_output_file_path_extensional (fs1 fs2 : FS) (p : Str)
    (a : Action) (h : fs1.isDir p = fs2.isDir p) :
    get_output_file_path fs1 p a = get_output_file_path fs2 p a := by
  unfold get_output_file_path
  rw [h]

/-- C5 witness. -/
theorem get_output_file_path_extensional_witness :
    get_output_file_path ⟨fun _ => false, fun _ => true⟩ (str "/x/track.gpx")
        Action.Invert
      = get_output_file_path fsAllFiles (str "/x/track.gpx") Action.Invert :=
  get_output_file_path_extensional ⟨fun _ => false, fun _ => true⟩ fsAllFiles
    (str "/x/track.gpx") Action.Invert rfl

/-- C6 counterexample: for a file whose stem contains a dot, Rust's
`set_extension` truncates the combined stem at its last dot, so
`/x/a.b.gpx` inverts to `/x/a.gpx`, not to the claimed
`/x/a.b-inverted.gpx`. -/
theorem get_output_file_path_dotted_counterexample :
    get_output_file_path fsAllFiles (str "/x/a.b.gpx") Action.Invert
      = some (str "/x/a.gpx") ∧
    some (str "/x/a.gpx") ≠ some (str "/x/a.b-inverted.gpx") := by
  decide

/-- C6 amended: a directory input maps to `input/<label>.gpx` for every
action; a file input with extension `e`, stem `s` and parent `b` maps to
`b/<s>-<label>.<e>` provided the stem `s` contains no dot and `e` is
nonempty (when `s` contains a dot, `set_extension` truncates at the last
dot of the combined stem, as the counterexample shows). -/
theorem get_output_file_path_naming (fs : FS) (a : Action) :
    (∀ p, fs.isDir p = true →
      get_output_file_path fs p a
        = some (join p (a.label ++ '.' :: str "gpx"))) ∧
    (∀ p e s b, fs.isDir p = false → extension p = some e →
      fileStem p = some s → parent p = some b → '.' ∉ s → e ≠ [] →
      get_output_file_path fs p a
        = some (join b ((s ++ '-' :: a.label) ++ '.' :: e))) := by
  constructor
  · intro p hdir
    unfold get_output_file_path
    rw [if_pos hdir, withExtension_join (label_ne_nil a)
      (slash_not_mem_label a) (dot_not_mem_label a) (by decide)]
  · intro p e s b hdir hext hstem hpar hdot he
    have hs_slash : '/' ∉ s := fileStem_no_slash hstem
    have hshape : s ++ str "-" ++ a.label = s ++ '-' :: a.label := by
      rw [str_dash_eq, List.append_assoc, List.singleton_append]
    have h0 : s ++ '-' :: a.label ≠ [] := by simp
    have h1 : '/' ∉ s ++ '-' :: a.label := by
      intro hm
      rcases List.mem_append.mp hm with hm1 | hm1
      · exact hs_slash hm1
      · rcases List.mem_cons.mp hm1 with hm2 | hm2
        · cases hm2
        · exact slash_not_mem_label a hm2
    have h2 : '.' ∉ s ++ '-' :: a.label := by
      intro hm
      rcases List.mem_append.mp hm with hm1 | hm1
      · exact hdot hm1
      · rcases List.mem_cons.mp hm1 with hm2 | hm2
        · cases hm2
        · exact dot_not_mem_label a hm2
    unfold get_output_file_path
    rw [if_neg (by rw [hdir]; exact Bool.false_ne_true), hext, hstem, hpar]
    show some (withExtension (join b (s ++ str "-" ++ a.label)) e)
      = some (join b ((s ++ '-' :: a.label) ++ '.' :: e))
    rw [hshape, withExtension_join h0 h1 h2 he]

/-- C6 witness. -/
theorem get_output_file_path_naming_witness :
    get_output_file_path fsAllDirs (str "/x") Action.Merge
      = some (join (str "/x") (Action.Merge.label ++ '.' :: str "gpx")) ∧
    get_output_file_path fsAllFiles (str "/x/track.gpx") Action.Invert
      = some (join (str "/x")
          ((str "track" ++ '-' :: Action.Invert.label) ++ '.' :: str "gpx")) :=
  ⟨(get_output_file_path_naming fsAllDirs Action.Merge).1 (str "/x") rfl,
    (get_output_file_path_naming fsAllFiles Action.Invert).2
      (str "/x/track.gpx") (str "gpx") (str "track") (str "/x")
      rfl (by decide) (by decide) (by decide) (by decide) (by decide)⟩

/-- C10: `get_output_file_path` is partial on file inputs: on a
non-directory path with no extension it panics (the model's `none`); and
whenever the input has an extension, a stem and a parent, no panic branch
is reachable and a path is returned.  (A non-Unicode stem cannot be
exhibited in the model, where all strings are valid Unicode.) -/
theorem get_output_file_path_panic_domain :
    (get_output_file_path fsAllFiles (str "/x/track") Action.Invert = none) ∧
    (∀ (fs : FS) (p : Str) (a : Action) (e s b : Str),
      extension p = some e → fileStem p = some s → parent p = some b →
      (get_output_file_path fs p a).isSome = true) := by
  constructor
  · decide
  · intro fs p a e s b hext hstem hpar
    unfold get_output_file_path
    by_cases hd : fs.isDir p = true
    · rw [if_pos hd]
      rfl
    · rw [if_neg hd, hext, hstem, hpar]
      rfl

/-- C10 witness. -/
theorem get_output_file_path_panic_domain_witness :
    (get_output_file_path fsAllFiles (str "/x/track.gpx")
      Action.Invert).isSome = true :=
  get_output_file_path_panic_domain.2 fsAllFiles (str "/x/track.gpx")
    Action.Invert (str "gpx") (str "track") (str "/x")
    (by decide) (by decide) (by decide)

end MergeMyGpx
